import Mathlib

set_option maxRecDepth 1000000

/-!
Verification of the Arabic OCR-output normalization and chunking pipeline of
`src/pdf_utils.py` (repository `katelkum/translater`).

Python strings are embedded as `List Char`; the integer `max_chunk_size`
parameter is embedded as `Int` so that non-positive configurations are
representable.  All definitions are translated directly from the source file:
`chunk_text`, `is_special_arabic_char`, `fix_arabic_ocr_errors`, and the
best-candidate selection loop of `extract_text_from_pdf_page`.
-/

/-! ## Definitions: the shallow embedding of src/pdf_utils.py -/

/-! ## Theorems -/

/-! ## Definitions: the shallow embedding of src/pdf_utils.py -/

/-- Characters stripped by Python `str.strip()` and matched by `\s` in a
`re` pattern on `str`: the code points with the Unicode White_Space
property. -/
def isPySpace (c : Char) : Bool :=
  let n := c.toNat
  (0x9 ≤ n && n ≤ 0xD) || n == 0x20 || (0x1C ≤ n && n ≤ 0x1F) ||
  n == 0x85 || n == 0xA0 || n == 0x1680 || (0x2000 ≤ n && n ≤ 0x200A) ||
  n == 0x2028 || n == 0x2029 || n == 0x202F || n == 0x205F || n == 0x3000

/-- The two-character paragraph separator `"\n\n"` used by `chunk_text`. -/
def parSep : List Char := ['\n', '\n']

/-- Python `text.split('\n\n')`: cut at each leftmost non-overlapping
occurrence of the separator.  `"".split('\n\n') = ['']`. -/
def splitOnNN : List Char → List (List Char)
  | [] => [[]]
  | [c] => [[c]]
  | c :: d :: rest =>
    if c = '\n' ∧ d = '\n' then [] :: splitOnNN rest
    else
      match splitOnNN (d :: rest) with
      | [] => [[c]]
      | p :: ps => (c :: p) :: ps

/-- Python `str.lstrip()`: drop leading whitespace. -/
def lstrip (t : List Char) : List Char := t.dropWhile isPySpace

/-- Python `str.rstrip()`: drop trailing whitespace. -/
def rstrip (t : List Char) : List Char := (lstrip t.reverse).reverse

/-- Python `str.strip()`: drop leading and trailing whitespace. -/
def pyStrip (t : List Char) : List Char := rstrip (lstrip t)

/-- The accumulation loop of `chunk_text` (src/pdf_utils.py lines 519-533):
state is the current chunk; on `len(current_chunk) + len(paragraph) >
max_chunk_size and current_chunk` the current chunk is sealed with
`.strip()` and the paragraph starts a new chunk, otherwise the paragraph
and a `"\n\n"` separator are appended to the current chunk; after the loop
a non-empty current chunk is sealed with `.strip()`. -/
def chunkLoop (max_chunk_size : Int) : List (List Char) → List Char → List (List Char)
  | [], current => if current ≠ [] then [pyStrip current] else []
  | p :: ps, current =>
    if (current.length : Int) + (p.length : Int) > max_chunk_size ∧ current ≠ [] then
      pyStrip current :: chunkLoop max_chunk_size ps (p ++ parSep)
    else
      chunkLoop max_chunk_size ps (current ++ p ++ parSep)

/-- `chunk_text` of src/pdf_utils.py: split on `"\n\n"`, then greedily
accumulate paragraphs. -/
def chunk_text (text : List Char) (max_chunk_size : Int) : List (List Char) :=
  chunkLoop max_chunk_size (splitOnNN text) []

/-- The Unicode ranges listed in `is_special_arabic_char`
(src/pdf_utils.py lines 184-196), in source order. -/
def special_ranges : List (Nat × Nat) :=
  [(0x0600, 0x06FF),
   (0xFB50, 0xFDFF),
   (0xFE70, 0xFEFF),
   (0x0750, 0x077F),
   (0x08A0, 0x08FF),
   (0x0870, 0x089F),
   (0x0890, 0x08FF),
   (0x10E60, 0x10E7F),
   (0x1EE00, 0x1EEFF),
   (0x06E0, 0x06FF),
   (0xFDF0, 0xFDFF)]

/-- The range test of `is_special_arabic_char` on a code point (the value
of Python `ord(char)`). -/
def isSpecialCode (n : Nat) : Bool :=
  special_ranges.any (fun r => r.1 ≤ n && n ≤ r.2)

/-- `is_special_arabic_char` applied to a one-character string. -/
def isSpecialArabicChar (c : Char) : Bool := isSpecialCode c.toNat

/-- `is_special_arabic_char` on an arbitrary string argument, code points
given as naturals so that the whole Python `str` domain (lone surrogates
included) is covered: `if not char: return False`, then `ord(char)`, which
raises (`none`) unless the string has exactly one character. -/
def is_special_arabic_char : List Nat → Option Bool
  | [] => some false
  | [n] => some (isSpecialCode n)
  | _ => none

/-- The `arabic_ligatures` table of `fix_arabic_ocr_errors` in `src/pdf_utils.py`,
in dict insertion order with later duplicate keys dropped (Python dict
semantics; every duplicate key in the source carries an identical value). -/
def arabic_ligatures : List (String × String) :=
  [("ﻻ", "لا"),
   ("ﻼ", "لا"),
   ("ﻵ", "لآ"),
   ("ﻶ", "لآ"),
   ("ﻷ", "لأ"),
   ("ﻸ", "لأ"),
   ("ﻹ", "لإ"),
   ("ﻺ", "لإ"),
   ("ﺠﻤ", "جم"),
   ("ﺠﻣ", "جم"),
   ("ﺤﻤ", "حم"),
   ("ﺤﻣ", "حم"),
   ("ﻣﺤ", "مح"),
   ("ﻤﺤ", "مح"),
   ("ﻌﻠ", "عل"),
   ("ﻋﻠ", "عل"),
   ("ﻤﻌ", "مع"),
   ("ﻣﻌ", "مع"),
   ("ﺑ", "ب"),
   ("ﺗ", "ت"),
   ("ﺛ", "ث"),
   ("ﺟ", "ج"),
   ("ﺣ", "ح"),
   ("ﺧ", "خ"),
   ("ﺳ", "س"),
   ("ﺷ", "ش"),
   ("ﺻ", "ص"),
   ("ﺿ", "ض"),
   ("ﻃ", "ط"),
   ("ﻇ", "ظ"),
   ("ﻋ", "ع"),
   ("ﻏ", "غ"),
   ("ﻓ", "ف"),
   ("ﻗ", "ق"),
   ("ﻛ", "ك"),
   ("ﻟ", "ل"),
   ("ﻣ", "م"),
   ("ﻧ", "ن"),
   ("ﻫ", "ه"),
   ("ﻳ", "ي"),
   ("ﺒ", "ب"),
   ("ﺘ", "ت"),
   ("ﺜ", "ث"),
   ("ﺠ", "ج"),
   ("ﺤ", "ح"),
   ("ﺨ", "خ"),
   ("ﺴ", "س"),
   ("ﺸ", "ش"),
   ("ﺼ", "ص"),
   ("ﻀ", "ض"),
   ("ﻄ", "ط"),
   ("ﻈ", "ظ"),
   ("ﻌ", "ع"),
   ("ﻐ", "غ"),
   ("ﻔ", "ف"),
   ("ﻘ", "ق"),
   ("ﻜ", "ك"),
   ("ﻠ", "ل"),
   ("ﻤ", "م"),
   ("ﻨ", "ن"),
   ("ﻬ", "ه"),
   ("ﻴ", "ي"),
   ("ﺐ", "ب"),
   ("ﺖ", "ت"),
   ("ﺚ", "ث"),
   ("ﺞ", "ج"),
   ("ﺢ", "ح"),
   ("ﺦ", "خ"),
   ("ﺲ", "س"),
   ("ﺶ", "ش"),
   ("ﺺ", "ص"),
   ("ﺾ", "ض"),
   ("ﻂ", "ط"),
   ("ﻆ", "ظ"),
   ("ﻊ", "ع"),
   ("ﻎ", "غ"),
   ("ﻒ", "ف"),
   ("ﻖ", "ق"),
   ("ﻚ", "ك"),
   ("ﻞ", "ل"),
   ("ﻢ", "م"),
   ("ﻦ", "ن"),
   ("ﻪ", "ه"),
   ("ﻲ", "ي"),
   ("ﻤﺠ", "مج"),
   ("ﻌﻤ", "عم"),
   ("ﻤﻨ", "من"),
   ("ﻨﻤ", "نم"),
   ("ﺴﻠ", "سل"),
   ("ﻠﺴ", "لس"),
   ("ﻠﻌ", "لع")]

/-- The `letter_fixes` table of `fix_arabic_ocr_errors` in `src/pdf_utils.py`,
in dict insertion order with later duplicate keys dropped (Python dict
semantics; every duplicate key in the source carries an identical value). -/
def letter_fixes : List (String × String) :=
  [("ھ", "ه"),
   ("ے", "ی"),
   ("ﺓ", "ة"),
   ("ﷲ", "الله"),
   ("ﷺ", "صلى الله عليه وسلم"),
   ("ﷻ", "سبحانه وتعالى"),
   ("ﷴ", "محمد"),
   ("ﷳ", "اكبر"),
   ("ﱞ", "ً"),
   ("ﱟ", "ٍ"),
   ("ﱠ", "ّ"),
   ("ﱡ", "ٌ")]

/-- The `quranic_symbols` table of `fix_arabic_ocr_errors` in `src/pdf_utils.py`,
in dict insertion order with later duplicate keys dropped (Python dict
semantics; every duplicate key in the source carries an identical value). -/
def quranic_symbols : List (String × String) :=
  [("۝", "۝"),
   ("۞", "۞"),
   ("﷽", "﷽"),
   ("﴾", "﴾"),
   ("﴿", "﴿"),
   ("۩", "۩"),
   ("۠", "۠"),
   ("۫", "۫"),
   ("۪", "۪"),
   ("ۭ", "ۭ"),
   ("۬", "۬"),
   ("۟", "۟"),
   ("†", "†"),
   ("‡", "‡"),
   ("۰", "۰"),
   ("۱", "۱"),
   ("۲", "۲"),
   ("۳", "۳"),
   ("۴", "۴"),
   ("۵", "۵"),
   ("۶", "۶"),
   ("۷", "۷"),
   ("۸", "۸"),
   ("۹", "۹")]

/-- The `diacritics` table of `fix_arabic_ocr_errors` in `src/pdf_utils.py`,
in dict insertion order with later duplicate keys dropped (Python dict
semantics; every duplicate key in the source carries an identical value). -/
def diacritics : List (String × String) :=
  [("ٰ", "ٰ"),
   ("ٖ", "ٖ"),
   ("ٗ", "ٗ"),
   ("ٜ", "ٜ"),
   ("ٕ", "ٕ"),
   ("ٔ", "ٔ"),
   ("ْ", "ْ"),
   ("ُ", "ُ"),
   ("ِ", "ِ"),
   ("َ", "َ"),
   ("ّ", "ّ"),
   ("ً", "ً"),
   ("ٍ", "ٍ"),
   ("ٌ", "ٌ")]

/-- The `arabic_numbers` table: single-character keys and values. -/
def arabic_numbers : List (Char × Char) :=
  [('٠', '0'), ('١', '1'), ('٢', '2'), ('٣', '3'), ('٤', '4'), ('٥', '5'), ('٦', '6'), ('٧', '7'), ('٨', '8'), ('٩', '9'), ('٪', '%'), ('٫', '.'), ('٬', ',')]

/-- Whether `k` is a prefix of the second list (Python substring test at a
position). -/
def listStartsWith : List Char → List Char → Bool
  | [], _ => true
  | _ :: _, [] => false
  | k :: ks, c :: cs => k == c && listStartsWith ks cs

/-- Fuel-driven body of Python `str.replace`: scan left to right, replace
each leftmost non-overlapping occurrence of `k` by `v`.  The fuel is an
upper bound on the number of scan steps; every step consumes at least one
character, so `fuel = t.length` (as used by `replaceAll`) never runs out. -/
def replaceAllAux (k v : List Char) : Nat → List Char → List Char
  | _, [] => []
  | 0, t => t
  | fuel + 1, c :: rest =>
    if k ≠ [] ∧ listStartsWith k (c :: rest) then
      v ++ replaceAllAux k v fuel ((c :: rest).drop k.length)
    else
      c :: replaceAllAux k v fuel rest

/-- Python `t.replace(k, v)` for a non-empty key `k` (every key in the
source tables is non-empty). -/
def replaceAll (k v t : List Char) : List Char := replaceAllAux k v t.length t

/-- One sequential pass of literal `str.replace` calls over a table, in
table order, as in the `for wrong, correct in table.items()` loops. -/
def applyReplaceTable (table : List (String × String)) (t : List Char) : List Char :=
  table.foldl (fun acc p => replaceAll p.1.toList p.2.toList acc) t

/-- A matcher attempts a regex match anchored at the start of the input;
on success it returns the text to emit for the match (the substitution
result) and the remaining input. -/
def Matcher : Type := List Char → Option (List Char × List Char)

/-- Literal sequence of characters. -/
def mlit (s : List Char) : Matcher := fun t =>
  if listStartsWith s t then some (s, t.drop s.length) else none

/-- Character class `[...]`: one character among `s`. -/
def mcls (s : List Char) : Matcher := fun t =>
  match t with
  | c :: rest => if c ∈ s then some ([c], rest) else none
  | [] => none

/-- Optional character class `[...]?`.  Greedy, as in Python; in every
pattern of the source the class is disjoint from the following mandatory
unit, so no backtracking is ever needed. -/
def mopt (s : List Char) : Matcher := fun t =>
  match t with
  | c :: rest => if c ∈ s then some ([c], rest) else some ([], t)
  | [] => some ([], [])

/-- Greedy `X*` on a single-character predicate (used for `\s*`; in every
source pattern the following unit is disjoint from the starred class). -/
def mstar (p : Char → Bool) : Matcher := fun t =>
  some (t.takeWhile p, t.dropWhile p)

/-- Greedy `X+` on a single-character predicate. -/
def mplus (p : Char → Bool) : Matcher := fun t =>
  match t.takeWhile p with
  | [] => none
  | m => some (m, t.dropWhile p)

/-- Sequencing of two matchers. -/
def mseq (a b : Matcher) : Matcher := fun t =>
  match a t with
  | some (m1, r1) =>
    match b r1 with
    | some (m2, r2) => some (m1 ++ m2, r2)
    | none => none
  | none => none

/-- Alternation, leftmost alternative first, as in Python `|`. -/
def malt (a b : Matcher) : Matcher := fun t =>
  match a t with
  | some r => some r
  | none => b t

/-- Replace whatever the matcher matched by the constant string `r`. -/
def mconst (m : Matcher) (r : List Char) : Matcher := fun t =>
  match m t with
  | some (_, rest) => some (r, rest)
  | none => none

/-- Fuel-driven body of Python `re.sub`: at each position try the matcher;
on a match that consumes at least one character emit its substitution and
continue after it, otherwise keep the character and move on.  No pattern
in the source can match the empty string, so the consumption guard never
fires for a genuine match. -/
def regexSubAux (m : Matcher) : Nat → List Char → List Char
  | _, [] => []
  | 0, t => t
  | fuel + 1, c :: rest =>
    match m (c :: rest) with
    | some (emit, rem) =>
      if rem.length ≤ rest.length then emit ++ regexSubAux m fuel rem
      else c :: regexSubAux m fuel rest
    | none => c :: regexSubAux m fuel rest

/-- Python `re.sub(pattern, repl, t)` for the matcher embedding `pattern`
with `repl` baked in. -/
def regexSub (m : Matcher) (t : List Char) : List Char :=
  regexSubAux m t.length t

/-- Pattern `اﻟ+` → `ال` (the second pattern character is the Arabic
presentation-form lam U+FEDF, exactly as in the source bytes). -/
def wpAl : Matcher :=
  mconst (mseq (mlit "ا".toList) (mplus (fun c => c == 'ﻟ'))) "ال".toList

/-- Pattern `ﷲ` → `الله`. -/
def wpAllah : Matcher := mconst (mlit "ﷲ".toList) "الله".toList

/-- Pattern `ﻣﺤﻤ[ﺪﺩدﺪﺩ]` → `محمد` (the class repeats two of its three
distinct characters in the source). -/
def wpMuhammad : Matcher :=
  mconst (mseq (mlit "ﻣﺤﻤ".toList) (mcls "ﺪﺩد".toList)) "محمد".toList

/-- Pattern `ﻋﺒ[ﺪﺩدﺪﺩ]` → `عبد`. -/
def wpAbd : Matcher :=
  mconst (mseq (mlit "ﻋﺒ".toList) (mcls "ﺪﺩد".toList)) "عبد".toList

/-- Pattern `اﻟ?ﺮﺣﻤ[ﻦﻥن]` → `الرحمن`. -/
def wpRahman : Matcher :=
  mconst (mseq (mlit "ا".toList)
    (mseq (mopt "ﻟ".toList) (mseq (mlit "ﺮﺣﻤ".toList) (mcls "ﻦﻥن".toList))))
    "الرحمن".toList

/-- Pattern `اﻟ?ﺮﺣ[ﻴﻳيﯾ]?[ﻢﻣم]` → `الرحيم`. -/
def wpRaheem : Matcher :=
  mconst (mseq (mlit "ا".toList)
    (mseq (mopt "ﻟ".toList)
      (mseq (mlit "ﺮﺣ".toList) (mseq (mopt "ﻴﻳيﯾ".toList) (mcls "ﻢﻣم".toList)))))
    "الرحيم".toList

/-- The `common_word_patterns` substitutions, in dict order. -/
def word_pattern_subs : List Matcher :=
  [wpAl, wpAllah, wpMuhammad, wpAbd, wpRahman, wpRaheem]

/-- Whitespace run `\s*`. -/
def wsStar : Matcher := mstar isPySpace

/-- Pattern `صل[ىي]\s*[اآ]لله\s*عل[يى]ه\s*[وﻭ]سلم` → `صلى الله عليه وسلم`. -/
def rpSalla : Matcher :=
  mconst (mseq (mlit "صل".toList) (mseq (mcls "ىي".toList) (mseq wsStar
    (mseq (mcls "اآ".toList) (mseq (mlit "لله".toList) (mseq wsStar
      (mseq (mlit "عل".toList) (mseq (mcls "يى".toList) (mseq (mlit "ه".toList)
        (mseq wsStar (mseq (mcls "وﻭ".toList) (mlit "سلم".toList))))))))))))
    "صلى الله عليه وسلم".toList

/-- Pattern `رض[يى]\s*[اآ]لله\s*عنه` → `رضي الله عنه`. -/
def rpRadi : Matcher :=
  mconst (mseq (mlit "رض".toList) (mseq (mcls "يى".toList) (mseq wsStar
    (mseq (mcls "اآ".toList) (mseq (mlit "لله".toList) (mseq wsStar
      (mlit "عنه".toList)))))))
    "رضي الله عنه".toList

/-- Pattern `عز\s*[وﻭ]جل` → `عز وجل`. -/
def rpAzza : Matcher :=
  mconst (mseq (mlit "عز".toList) (mseq wsStar (mseq (mcls "وﻭ".toList)
    (mlit "جل".toList)))) "عز وجل".toList

/-- Pattern `تعال[ىي]` → `تعالى`. -/
def rpTaala : Matcher :=
  mconst (mseq (mlit "تعال".toList) (mcls "ىي".toList)) "تعالى".toList

/-- Pattern `سبحانه` → `سبحانه` (a self-replacement). -/
def rpSubhan : Matcher := mconst (mlit "سبحانه".toList) "سبحانه".toList

/-- Pattern `تبارك` → `تبارك` (a self-replacement). -/
def rpTabarak : Matcher := mconst (mlit "تبارك".toList) "تبارك".toList

/-- The grade alternation `(صحيح|حسن|ضعيف)` of the hadith pattern. -/
def mGrade : Matcher :=
  malt (mlit "صحيح".toList) (malt (mlit "حسن".toList) (mlit "ضعيف".toList))

/-- Pattern `حديث\s*(صحيح|حسن|ضعيف)` → `حديث \1`: the captured grade word
is kept and the spacing canonicalized to one space. -/
def rpHadith : Matcher := fun t =>
  match mlit "حديث".toList t with
  | some (_, r1) =>
    match mGrade (r1.dropWhile isPySpace) with
    | some (g, rest) => some ("حديث ".toList ++ g, rest)
    | none => none
  | none => none

/-- The `religious_phrases` substitutions, in dict order. -/
def religious_subs : List Matcher :=
  [rpSalla, rpRadi, rpAzza, rpTaala, rpSubhan, rpTabarak, rpHadith]

/-- The `quranic_symbols` pass: each symbol is replaced by itself padded
with one space on each side (`f' {correct} '`). -/
def applyQuranic (t : List Char) : List Char :=
  quranic_symbols.foldl
    (fun acc p => replaceAll p.1.toList (' ' :: (p.2.toList ++ [' '])) acc) t

/-- The `arabic_numbers` pass: a single combined-pattern scan; since every
key and value is a single character this is a character map. -/
def applyNumbers (t : List Char) : List Char :=
  t.map (fun c => (List.lookup c arabic_numbers).getD c)

/-- The tatweel (kashida) character U+0640. -/
def tatweel : Char := 'ـ'

/-- Pattern `ـ+` → empty string: remove tatweel runs. -/
def cpTatweel : Matcher := mconst (mplus (fun c => c == tatweel)) []

/-- The alef-family class `[ءآأؤإئا]` of `fix_connected_letters`. -/
def alefCls : List Char := "ءآأؤإئا".toList

/-- The general-letter class `[بتثجحخسشصضطظعغفقكلمنهي]` of
`fix_connected_letters`. -/
def letterCls : List Char :=
  "بتثجحخسشصضطظعغفقكلمنهي".toList

/-- Pattern `([cls])ـ+([cls])` → `\1\2`: two class letters separated by a
tatweel run collapse to the two letters.  Greedy `ـ+` needs no
backtracking: the class never contains the tatweel. -/
def cpJoin (cls : List Char) : Matcher := fun t =>
  match t with
  | c1 :: rest =>
    if c1 ∈ cls then
      match rest.takeWhile (fun c => c == tatweel) with
      | [] => none
      | _ :: _ =>
        match rest.dropWhile (fun c => c == tatweel) with
        | c2 :: rest2 => if c2 ∈ cls then some ([c1, c2], rest2) else none
        | [] => none
    else none
  | [] => none

/-- The inner `fix_connected_letters` helper: its three `re.sub` passes in
source order. -/
def fix_connected_letters (t : List Char) : List Char :=
  regexSub (cpJoin letterCls) (regexSub (cpJoin alefCls) (regexSub cpTatweel t))

/-- `fix_arabic_ocr_errors` of src/pdf_utils.py: the eight rule categories
in the exact order the function applies them: (1) `arabic_ligatures`
literal replaces, (2) `common_word_patterns` regex subs, (3) `letter_fixes`
literal replaces, (4) `religious_phrases` regex subs, (5) `quranic_symbols`
space-padding replaces, (6) `arabic_numbers` combined scan, (7) `diacritics`
identity replaces, (8) `fix_connected_letters` regex subs. -/
def fix_arabic_ocr_errors (t : List Char) : List Char :=
  let t1 := applyReplaceTable arabic_ligatures t
  let t2 := word_pattern_subs.foldl (fun acc m => regexSub m acc) t1
  let t3 := applyReplaceTable letter_fixes t2
  let t4 := religious_subs.foldl (fun acc m => regexSub m acc) t3
  let t5 := applyQuranic t4
  let t6 := applyNumbers t5
  let t7 := applyReplaceTable diacritics t6
  fix_connected_letters t7

/-- The number of classifier-positive characters of a text, as computed by
`len([c for c in text if is_special_arabic_char(c)])`. -/
def countSpecial (t : List Char) : Nat :=
  (t.filter isSpecialArabicChar).length

/-- The candidate-selection loop of `extract_text_from_pdf_page`
(src/pdf_utils.py lines 168-175): running best, replaced only on a
strictly greater special-character count of the corrected candidate. -/
def selectLoop : List Char → List (List Char) → List Char
  | final, [] => final
  | final, c :: cs =>
    if countSpecial (fix_arabic_ocr_errors c) > countSpecial final then
      selectLoop (fix_arabic_ocr_errors c) cs
    else
      selectLoop final cs

/-- The final-text selection of `extract_text_from_pdf_page`:
`final_text = ""`, the loop above, then
`return final_text or extracted_texts[0] if extracted_texts else ""`
(the conditional expression binds last, and `or` returns the raw first
candidate when `final_text` is the empty string). -/
def select_final_text (cands : List (List Char)) : List Char :=
  match cands with
  | [] => []
  | c0 :: _ =>
    if selectLoop [] cands ≠ [] then selectLoop [] cands else c0

/-- A group of consecutive paragraphs joined the way `chunk_text`
accumulates them: each paragraph followed by the `"\n\n"` separator. -/
def joinPars (g : List (List Char)) : List Char :=
  (g.map (fun p => p ++ parSep)).flatten

/-- One step of the reference algorithm the specification describes,
parameterized by the seal operation: a paragraph is appended to the
current chunk (with the paragraph separator) unless the current chunk is
non-empty and adding the paragraph would push its length over the
maximum, in which case the current chunk is sealed and a new chunk begins
with that paragraph. -/
def refStep (sealFn : List Char → List Char) (max_chunk_size : Int)
    (st : List (List Char) × List Char) (p : List Char) :
    List (List Char) × List Char :=
  if st.2 ≠ [] ∧ (st.2.length : Int) + (p.length : Int) > max_chunk_size then
    (st.1 ++ [sealFn st.2], p ++ parSep)
  else
    (st.1, st.2 ++ p ++ parSep)

/-- After the scan, the final accumulated chunk, if non-empty, is sealed
and appended. -/
def refFinish (sealFn : List Char → List Char)
    (st : List (List Char) × List Char) : List (List Char) :=
  if st.2 ≠ [] then st.1 ++ [sealFn st.2] else st.1

/-- The reference chunking algorithm: split the text on double newlines
into paragraphs and scan them in original order with `refStep`; with
`seal := rstrip` this is the claim C1 reference algorithm verbatim
(sealing trims trailing whitespace only), with `seal := pyStrip` it is
the amended version (sealing trims both sides). -/
def chunk_text_reference (sealFn : List Char → List Char)
    (text : List Char) (max_chunk_size : Int) : List (List Char) :=
  refFinish sealFn ((splitOnNN text).foldl (refStep sealFn max_chunk_size) ([], []))

/-- The special-character count of a candidate after correction, the
score on which `extract_text_from_pdf_page` compares candidates. -/
def correctedCount (c : List Char) : Nat :=
  countSpecial (fix_arabic_ocr_errors c)

/-- The greatest corrected special-character count over a candidate list. -/
def maxCount (cands : List (List Char)) : Nat :=
  (cands.map correctedCount).foldr max 0

/-- Characters on which every rule table and pattern of the corrector is
inert: the 7-bit range. -/
def isAsciiChar (c : Char) : Bool := decide (c.toNat < 128)

/-- The code-point blocks listed by the classifier claim, written as a
predicate: standard Arabic block (with the source's re-listing of its
06E0-06FF tail), Arabic Supplement, Arabic Extended-A, Arabic Extended-B,
the 0890-08FF range the source labels Arabic Extended-C, Arabic
Presentation Forms-A, Arabic ligatures, Arabic Presentation Forms-B, Rumi
Numeral Symbols, and Arabic Mathematical Alphabetic Symbols. -/
def inListedBlocks (n : Nat) : Prop :=
  (0x0600 ≤ n ∧ n ≤ 0x06FF) ∨ (0x06E0 ≤ n ∧ n ≤ 0x06FF) ∨
  (0x0750 ≤ n ∧ n ≤ 0x077F) ∨ (0x08A0 ≤ n ∧ n ≤ 0x08FF) ∨
  (0x0870 ≤ n ∧ n ≤ 0x089F) ∨ (0x0890 ≤ n ∧ n ≤ 0x08FF) ∨
  (0xFB50 ≤ n ∧ n ≤ 0xFDFF) ∨ (0xFDF0 ≤ n ∧ n ≤ 0xFDFF) ∨
  (0xFE70 ≤ n ∧ n ≤ 0xFEFF) ∨ (0x10E60 ≤ n ∧ n ≤ 0x10E7F) ∨
  (0x1EE00 ≤ n ∧ n ≤ 0x1EEFF)

/-! ## Theorems -/

theorem lstrip_idem (t : List Char) : lstrip (lstrip t) = lstrip t := by
  unfold lstrip
  cases h : t.dropWhile isPySpace with
  | nil => rfl
  | cons c rest =>
    have hc := List.head?_dropWhile_not isPySpace t
    rw [h] at hc
    simp only [List.head?_cons] at hc
    rw [List.dropWhile_cons_of_neg (by simp [hc])]

theorem rstrip_idem (t : List Char) : rstrip (rstrip t) = rstrip t := by
  unfold rstrip
  rw [List.reverse_reverse, lstrip_idem]

theorem rstrip_append_sep (t : List Char) : rstrip (t ++ parSep) = rstrip t := by
  unfold rstrip lstrip
  rw [show (t ++ parSep).reverse = '\n' :: '\n' :: t.reverse from by simp [parSep]]
  rw [List.dropWhile_cons_of_pos (by decide), List.dropWhile_cons_of_pos (by decide)]

theorem pyStrip_append_sep (t : List Char) : pyStrip (t ++ parSep) = pyStrip t := by
  unfold pyStrip
  unfold lstrip
  rw [List.dropWhile_append]
  cases h : t.dropWhile isPySpace with
  | nil =>
    rw [show (([] : List Char).isEmpty) = true from rfl, if_pos rfl]
    rw [show List.dropWhile isPySpace parSep = [] from by decide]
  | cons c rest =>
    rw [show ((c :: rest).isEmpty) = false from rfl]
    simp only [Bool.false_eq_true, if_false]
    exact rstrip_append_sep _

theorem rstrip_is_prefix (t : List Char) : ∃ s, t = rstrip t ++ s := by
  obtain ⟨pre, hp⟩ := List.dropWhile_suffix (l := t.reverse) isPySpace
  refine ⟨pre.reverse, ?_⟩
  calc t = t.reverse.reverse := (List.reverse_reverse t).symm
  _ = (pre ++ List.dropWhile isPySpace t.reverse).reverse := by rw [hp]
  _ = rstrip t ++ pre.reverse := by
        unfold rstrip lstrip
        rw [List.reverse_append]

theorem lstrip_rstrip_of_lstripped (t : List Char) (h : lstrip t = t) :
    lstrip (rstrip t) = rstrip t := by
  cases hr : rstrip t with
  | nil => rfl
  | cons c rest =>
    obtain ⟨s, hs⟩ := rstrip_is_prefix t
    rw [hr] at hs
    have hc : isPySpace c = false := by
      by_contra hcc
      have hcc : isPySpace c = true := by
        cases hx : isPySpace c
        · exact absurd hx hcc
        · rfl
      rw [hs] at h
      unfold lstrip at h
      rw [List.cons_append, List.dropWhile_cons_of_pos hcc] at h
      have hlen := congrArg List.length h
      have hle := (List.dropWhile_suffix (l := rest ++ s) isPySpace).length_le
      simp [List.length_append] at hlen hle
      omega
    unfold lstrip
    rw [List.dropWhile_cons_of_neg (by simp [hc])]

theorem pyStrip_idem (t : List Char) : pyStrip (pyStrip t) = pyStrip t := by
  unfold pyStrip
  rw [lstrip_rstrip_of_lstripped (lstrip t) (lstrip_idem t), rstrip_idem]

theorem lstrip_of_no_ws (t : List Char) (h : ∀ c ∈ t, isPySpace c = false) :
    lstrip t = t := by
  cases t with
  | nil => rfl
  | cons c rest =>
    unfold lstrip
    rw [List.dropWhile_cons_of_neg (by simp [h c (List.mem_cons_self c rest)])]

theorem pyStrip_of_no_ws (t : List Char) (h : ∀ c ∈ t, isPySpace c = false) :
    pyStrip t = t := by
  unfold pyStrip rstrip
  rw [lstrip_of_no_ws t h, lstrip_of_no_ws t.reverse (by
    intro c hc
    exact h c (List.mem_reverse.mp hc))]
  exact t.reverse_reverse

theorem splitOnNN_ne_nil (t : List Char) : splitOnNN t ≠ [] := by
  match t with
  | [] => simp [splitOnNN]
  | [c] => simp [splitOnNN]
  | c :: d :: rest =>
    rw [splitOnNN]
    by_cases h : c = '\n' ∧ d = '\n'
    · simp [h]
    · rw [if_neg h]
      cases hs : splitOnNN (d :: rest) <;> simp

theorem splitOnNN_no_newline (t : List Char) (h : ∀ c ∈ t, c ≠ '\n') :
    splitOnNN t = [t] := by
  match t with
  | [] => rfl
  | [c] => rfl
  | c :: d :: rest =>
    rw [splitOnNN]
    rw [if_neg (by
      intro hcd
      exact h c (by simp) hcd.1)]
    rw [splitOnNN_no_newline (d :: rest) (by
      intro x hx
      exact h x (List.mem_cons_of_mem c hx))]

theorem joinPars_nil : joinPars [] = [] := rfl

theorem joinPars_single (p : List Char) : joinPars [p] = p ++ parSep := by
  simp [joinPars]

theorem joinPars_append_one (g : List (List Char)) (p : List Char) :
    joinPars (g ++ [p]) = joinPars g ++ (p ++ parSep) := by
  simp [joinPars]

theorem joinPars_ne_nil (g : List (List Char)) (h : g ≠ []) : joinPars g ≠ [] := by
  cases g with
  | nil => exact absurd rfl h
  | cons p g => simp [joinPars, parSep]

theorem length_le_joinPars (g : List (List Char)) (q : List Char) (hq : q ∈ g) :
    q.length ≤ (joinPars g).length := by
  induction g with
  | nil => cases hq
  | cons p g ih =>
    rcases List.mem_cons.mp hq with h | h
    · subst h
      simp [joinPars, List.length_append]
    · have := ih h
      simp [joinPars, List.length_append] at this ⊢
      omega

/-- Structure of the `chunk_text` loop: starting from a current chunk that
holds the separator-joined group `g`, the output is a list of
whitespace-stripped separator-joined groups `gs` whose concatenation is
exactly the remaining paragraphs appended to `g`, every group is
non-empty, and every group of two or more paragraphs holds only
paragraphs of length at most the maximum. -/
theorem chunkLoop_partition (max_chunk_size : Int) :
    ∀ (ps g : List (List Char)),
      (2 ≤ g.length → ∀ q ∈ g, (q.length : Int) ≤ max_chunk_size) →
      ∃ gs : List (List (List Char)),
        chunkLoop max_chunk_size ps (joinPars g) =
          gs.map (fun h => pyStrip (joinPars h)) ∧
        gs.flatten = g ++ ps ∧
        (∀ h ∈ gs, h ≠ []) ∧
        (∀ h ∈ gs, 2 ≤ h.length → ∀ q ∈ h, (q.length : Int) ≤ max_chunk_size) := by
  intro ps
  induction ps with
  | nil =>
    intro g hg
    by_cases h : g = []
    · subst h
      exact ⟨[], by simp [chunkLoop, joinPars]⟩
    · refine ⟨[g], ?_, by simp, by simp [h], by simpa using hg⟩
      simp [chunkLoop, joinPars_ne_nil g h]
  | cons p ps ih =>
    intro g hg
    by_cases hcond : ((joinPars g).length : Int) + (p.length : Int) > max_chunk_size ∧
        joinPars g ≠ []
    · have hgne : g ≠ [] := by
        intro hgnil
        rw [hgnil] at hcond
        exact hcond.2 rfl
      obtain ⟨gs, h1, h2, h3, h4⟩ := ih [p] (by simp)
      refine ⟨g :: gs, ?_, ?_, ?_, ?_⟩
      · rw [show chunkLoop max_chunk_size (p :: ps) (joinPars g) =
              pyStrip (joinPars g) :: chunkLoop max_chunk_size ps (p ++ parSep)
            from by rw [chunkLoop, if_pos hcond]]
        rw [← joinPars_single, h1]
        simp
      · simp [h2]
      · intro h hh
        rcases List.mem_cons.mp hh with h | h
        · subst h; exact hgne
        · exact h3 _ h
      · intro h hh
        rcases List.mem_cons.mp hh with h | h
        · subst h; exact hg
        · exact h4 _ h
    · have hstep : chunkLoop max_chunk_size (p :: ps) (joinPars g) =
          chunkLoop max_chunk_size ps (joinPars (g ++ [p])) := by
        rw [chunkLoop, if_neg hcond, joinPars_append_one, List.append_assoc]
      by_cases hgnil : g = []
      · subst hgnil
        obtain ⟨gs, h1, h2, h3, h4⟩ := ih [p] (by simp)
        refine ⟨gs, ?_, by simpa using h2, h3, h4⟩
        rw [hstep]
        simpa using h1
      · have hsum : ((joinPars g).length : Int) + (p.length : Int) ≤ max_chunk_size := by
          by_contra hc
          exact hcond ⟨by omega, joinPars_ne_nil g hgnil⟩
        obtain ⟨gs, h1, h2, h3, h4⟩ := ih (g ++ [p]) (by
          intro _ q hq
          rcases List.mem_append.mp hq with h | h
          · have := length_le_joinPars g q h
            have hp0 : (0 : Int) ≤ (p.length : Int) := Int.ofNat_nonneg _
            have : (q.length : Int) ≤ ((joinPars g).length : Int) := by
              exact_mod_cast this
            omega
          · have : q = p := by simpa using h
            subst this
            have hj0 : (0 : Int) ≤ ((joinPars g).length : Int) := Int.ofNat_nonneg _
            omega)
        refine ⟨gs, ?_, ?_, h3, h4⟩
        · rw [hstep]; exact h1
        · rw [h2]; simp

theorem chunkLoop_nonpos (m : Int) (hm : m ≤ 0) :
    ∀ (ps : List (List Char)) (p : List Char),
      chunkLoop m ps (p ++ parSep) = pyStrip p :: ps.map pyStrip := by
  intro ps
  induction ps with
  | nil =>
    intro p
    rw [chunkLoop, if_pos (by simp [parSep]), pyStrip_append_sep]
    rfl
  | cons q ps ih =>
    intro p
    have hlen : 2 ≤ (p ++ parSep).length := by simp [parSep]
    rw [chunkLoop, if_pos ⟨by
      have h1 : (0 : Int) ≤ (q.length : Int) := Int.ofNat_nonneg _
      have h2 : (2 : Int) ≤ ((p ++ parSep).length : Int) := by exact_mod_cast hlen
      omega, by simp [parSep]⟩]
    rw [pyStrip_append_sep, ih]
    rfl

theorem chunkLoop_mem_strip (m : Int) :
    ∀ (ps : List (List Char)) (cur c : List Char),
      c ∈ chunkLoop m ps cur → ∃ x, c = pyStrip x := by
  intro ps
  induction ps with
  | nil =>
    intro cur c hc
    rw [chunkLoop] at hc
    by_cases h : cur = []
    · rw [if_neg (by simp [h])] at hc
      cases hc
    · rw [if_pos h] at hc
      exact ⟨cur, (List.mem_singleton.mp hc)⟩
  | cons p ps ih =>
    intro cur c hc
    rw [chunkLoop] at hc
    by_cases h : (cur.length : Int) + (p.length : Int) > m ∧ cur ≠ []
    · rw [if_pos h] at hc
      rcases List.mem_cons.mp hc with h1 | h1
      · exact ⟨cur, h1⟩
      · exact ih _ c h1
    · rw [if_neg h] at hc
      exact ih _ c hc

theorem chunk_text_single (t : List Char) (m : Int) (h : splitOnNN t = [t]) :
    chunk_text t m = [pyStrip t] := by
  unfold chunk_text
  rw [h, chunkLoop, if_neg (by simp), chunkLoop,
    if_pos (by simp [parSep]), List.nil_append, pyStrip_append_sep]

theorem foldl_refStep_eq_chunkLoop (m : Int) :
    ∀ (ps : List (List Char)) (acc : List (List Char)) (cur : List Char),
      refFinish pyStrip (ps.foldl (refStep pyStrip m) (acc, cur)) =
        acc ++ chunkLoop m ps cur := by
  intro ps
  induction ps with
  | nil =>
    intro acc cur
    rw [List.foldl_nil, refFinish, chunkLoop]
    by_cases h : cur = []
    · rw [if_neg (by simp [h]), if_neg (by simp [h]), List.append_nil]
    · rw [if_pos h, if_pos h]
  | cons p ps ih =>
    intro acc cur
    rw [List.foldl_cons, chunkLoop]
    by_cases h1 : cur = []
    · rw [refStep, if_neg (by simp [h1]), ih,
        if_neg (by simp [h1])]
    · by_cases h2 : (cur.length : Int) + (p.length : Int) > m
      · rw [refStep, if_pos ⟨h1, h2⟩, ih, if_pos ⟨h2, h1⟩]
        simp
      · rw [refStep, if_neg (by
          intro hc
          exact h2 hc.2), ih, if_neg (by
          intro hc
          exact h2 hc.1)]

theorem maxCount_nil : maxCount [] = 0 := rfl

theorem maxCount_cons (c : List Char) (cs : List (List Char)) :
    maxCount (c :: cs) = max (correctedCount c) (maxCount cs) := rfl

/-- The running-best loop keeps the previous best unless some candidate
strictly beats it; when one does, the result is the correction of the
first candidate attaining the greatest corrected count. -/
theorem selectLoop_characterization :
    ∀ (cs : List (List Char)) (final : List Char),
      (maxCount cs ≤ countSpecial final → selectLoop final cs = final) ∧
      (countSpecial final < maxCount cs →
        ∃ c, cs.find? (fun x => correctedCount x == maxCount cs) = some c ∧
          selectLoop final cs = fix_arabic_ocr_errors c) := by
  intro cs
  induction cs with
  | nil =>
    intro final
    refine ⟨fun _ => rfl, fun h => ?_⟩
    rw [maxCount_nil] at h
    omega
  | cons c cs ih =>
    intro final
    constructor
    · intro hle
      rw [maxCount_cons] at hle
      rw [selectLoop, if_neg (by
        show ¬ countSpecial final < correctedCount c
        omega)]
      exact (ih final).1 (by omega)
    · intro hlt
      rw [maxCount_cons] at hlt
      rw [maxCount_cons]
      by_cases hc : countSpecial final < correctedCount c
      · have hcc : countSpecial (fix_arabic_ocr_errors c) > countSpecial final := hc
        rw [selectLoop, if_pos hcc]
        by_cases hM : maxCount cs ≤ correctedCount c
        · have hmax : max (correctedCount c) (maxCount cs) = correctedCount c := by omega
          rw [hmax]
          have hp : (correctedCount c == correctedCount c) = true := by simp
          refine ⟨c, by simp [List.find?_cons, hp], ?_⟩
          exact (ih (fix_arabic_ocr_errors c)).1 hM
        · have hmax : max (correctedCount c) (maxCount cs) = maxCount cs := by omega
          rw [hmax]
          obtain ⟨d, hd1, hd2⟩ := (ih (fix_arabic_ocr_errors c)).2 (by
            show correctedCount c < maxCount cs
            omega)
          have hp : (correctedCount c == maxCount cs) = false := by
            simp
            omega
          exact ⟨d, by simp [List.find?_cons, hp]; exact hd1, hd2⟩
      · have hcc : ¬ countSpecial (fix_arabic_ocr_errors c) > countSpecial final := hc
        rw [selectLoop, if_neg hcc]
        have hmax : max (correctedCount c) (maxCount cs) = maxCount cs := by omega
        rw [hmax]
        obtain ⟨d, hd1, hd2⟩ := (ih final).2 (by omega)
        have hp : (correctedCount c == maxCount cs) = false := by
          simp
          omega
        exact ⟨d, by simp [List.find?_cons, hp]; exact hd1, hd2⟩

theorem countSpecial_pos_ne_nil (t : List Char) (h : 0 < countSpecial t) :
    t ≠ [] := by
  intro hnil
  rw [hnil] at h
  exact absurd h (by decide)

theorem mem_of_listStartsWith (k : List Char) :
    ∀ (t : List Char), listStartsWith k t = true → ∀ x ∈ k, x ∈ t := by
  induction k with
  | nil =>
    intro t _ x hx
    cases hx
  | cons a ks ih =>
    intro t hpre x hx
    cases t with
    | nil => rw [listStartsWith] at hpre; simp at hpre
    | cons c rest =>
      rw [listStartsWith] at hpre
      simp only [Bool.and_eq_true] at hpre
      obtain ⟨h1, h2⟩ := hpre
      rcases List.mem_cons.mp hx with rfl | hx
      · rw [eq_of_beq h1]
        exact List.mem_cons_self _ _
      · exact List.mem_cons_of_mem _ (ih rest h2 x hx)

theorem replaceAllAux_id (k v : List Char) (P : Char → Bool)
    (hk : ∃ x ∈ k, P x = false) :
    ∀ (fuel : Nat) (t : List Char), (∀ c ∈ t, P c = true) →
      replaceAllAux k v fuel t = t := by
  intro fuel
  induction fuel with
  | zero =>
    intro t _
    cases t <;> rfl
  | succ fuel ih =>
    intro t ht
    cases t with
    | nil => rfl
    | cons c rest =>
      rw [replaceAllAux, if_neg (by
        rintro ⟨-, hpre⟩
        obtain ⟨x, hxk, hxP⟩ := hk
        have hxt := mem_of_listStartsWith k (c :: rest) hpre x hxk
        rw [ht x hxt] at hxP
        simp at hxP)]
      rw [ih rest (fun x hx => ht x (List.mem_cons_of_mem c hx))]

theorem replaceAll_id (k v t : List Char) (P : Char → Bool)
    (hk : ∃ x ∈ k, P x = false) (ht : ∀ c ∈ t, P c = true) :
    replaceAll k v t = t :=
  replaceAllAux_id k v P hk t.length t ht

theorem foldl_replace_id (table : List (String × String))
    (f : String × String → List Char) (P : Char → Bool)
    (htable : ∀ p ∈ table, ∃ x ∈ p.1.toList, P x = false) :
    ∀ t, (∀ c ∈ t, P c = true) →
      table.foldl (fun acc p => replaceAll p.1.toList (f p) acc) t = t := by
  induction table with
  | nil => intro t _; rfl
  | cons p tbl ih =>
    intro t ht
    rw [List.foldl_cons,
      replaceAll_id p.1.toList (f p) t P (htable p (List.mem_cons_self p tbl)) ht]
    exact ih (fun q hq => htable q (List.mem_cons_of_mem p hq)) t ht

theorem applyReplaceTable_id (table : List (String × String)) (P : Char → Bool)
    (htable : ∀ p ∈ table, ∃ x ∈ p.1.toList, P x = false)
    (t : List Char) (ht : ∀ c ∈ t, P c = true) :
    applyReplaceTable table t = t :=
  foldl_replace_id table (fun p => p.2.toList) P htable t ht

theorem regexSubAux_id (m : Matcher) (P : Char → Bool)
    (hm : ∀ s : List Char, (∀ c ∈ s, P c = true) → m s = none) :
    ∀ (fuel : Nat) (t : List Char), (∀ c ∈ t, P c = true) →
      regexSubAux m fuel t = t := by
  intro fuel
  induction fuel with
  | zero =>
    intro t _
    cases t <;> rfl
  | succ fuel ih =>
    intro t ht
    cases t with
    | nil => rfl
    | cons c rest =>
      rw [regexSubAux, hm (c :: rest) ht]
      rw [ih rest (fun x hx => ht x (List.mem_cons_of_mem c hx))]

theorem regexSub_id (m : Matcher) (P : Char → Bool)
    (hm : ∀ s : List Char, (∀ c ∈ s, P c = true) → m s = none)
    (t : List Char) (ht : ∀ c ∈ t, P c = true) :
    regexSub m t = t :=
  regexSubAux_id m P hm t.length t ht

theorem foldl_regexSub_id (ms : List Matcher) (P : Char → Bool)
    (hms : ∀ m ∈ ms, ∀ s : List Char, (∀ c ∈ s, P c = true) → m s = none) :
    ∀ t, (∀ c ∈ t, P c = true) →
      ms.foldl (fun acc m => regexSub m acc) t = t := by
  induction ms with
  | nil => intro t _; rfl
  | cons m ms ih =>
    intro t ht
    rw [List.foldl_cons, regexSub_id m P (hms m (List.mem_cons_self m ms)) t ht]
    exact ih (fun q hq => hms q (List.mem_cons_of_mem m hq)) t ht

theorem mlit_none_cons (d : Char) (ks : List Char) (P : Char → Bool)
    (hd : P d = false) (s : List Char) (hs : ∀ c ∈ s, P c = true) :
    mlit (d :: ks) s = none := by
  unfold mlit
  cases s with
  | nil => rw [if_neg (by rw [listStartsWith]; simp)]
  | cons c rest =>
    have hne : (d == c) = false := by
      cases hb : d == c
      · rfl
      · have hdc := eq_of_beq hb
        subst hdc
        rw [hs d (List.mem_cons_self d rest)] at hd
        simp at hd
    rw [if_neg (by rw [listStartsWith]; simp [hne])]

theorem mseq_none_left (a b : Matcher) (s : List Char) (h : a s = none) :
    mseq a b s = none := by
  unfold mseq
  rw [h]

theorem mconst_none (m : Matcher) (r : List Char) (s : List Char)
    (h : m s = none) : mconst m r s = none := by
  unfold mconst
  rw [h]

theorem wp_subs_none_on_ascii :
    ∀ m ∈ word_pattern_subs, ∀ s : List Char,
      (∀ c ∈ s, isAsciiChar c = true) → m s = none := by
  intro m hm s hs
  simp only [word_pattern_subs, List.mem_cons, List.not_mem_nil, or_false] at hm
  rcases hm with rfl | rfl | rfl | rfl | rfl | rfl
  · exact mconst_none _ _ s (mseq_none_left _ _ s
      (mlit_none_cons 'ا' [] isAsciiChar (by decide) s hs))
  · exact mconst_none _ _ s (mlit_none_cons 'ﷲ' [] isAsciiChar (by decide) s hs)
  · exact mconst_none _ _ s (mseq_none_left _ _ s
      (mlit_none_cons 'ﻣ' "ﺤﻤ".toList isAsciiChar (by decide) s hs))
  · exact mconst_none _ _ s (mseq_none_left _ _ s
      (mlit_none_cons 'ﻋ' "ﺒ".toList isAsciiChar (by decide) s hs))
  · exact mconst_none _ _ s (mseq_none_left _ _ s
      (mlit_none_cons 'ا' [] isAsciiChar (by decide) s hs))
  · exact mconst_none _ _ s (mseq_none_left _ _ s
      (mlit_none_cons 'ا' [] isAsciiChar (by decide) s hs))

theorem rpHadith_none_on_ascii (s : List Char)
    (hs : ∀ c ∈ s, isAsciiChar c = true) : rpHadith s = none := by
  unfold rpHadith
  have h : mlit "حديث".toList s = none :=
    mlit_none_cons 'ح' "ديث".toList isAsciiChar (by decide) s hs
  rw [h]

theorem religious_subs_none_on_ascii :
    ∀ m ∈ religious_subs, ∀ s : List Char,
      (∀ c ∈ s, isAsciiChar c = true) → m s = none := by
  intro m hm s hs
  simp only [religious_subs, List.mem_cons, List.not_mem_nil, or_false] at hm
  rcases hm with rfl | rfl | rfl | rfl | rfl | rfl | rfl
  · exact mconst_none _ _ s (mseq_none_left _ _ s
      (mlit_none_cons 'ص' "ل".toList isAsciiChar (by decide) s hs))
  · exact mconst_none _ _ s (mseq_none_left _ _ s
      (mlit_none_cons 'ر' "ض".toList isAsciiChar (by decide) s hs))
  · exact mconst_none _ _ s (mseq_none_left _ _ s
      (mlit_none_cons 'ع' "ز".toList isAsciiChar (by decide) s hs))
  · exact mconst_none _ _ s (mseq_none_left _ _ s
      (mlit_none_cons 'ت' "عال".toList isAsciiChar (by decide) s hs))
  · exact mconst_none _ _ s
      (mlit_none_cons 'س' "بحانه".toList isAsciiChar (by decide) s hs)
  · exact mconst_none _ _ s
      (mlit_none_cons 'ت' "بارك".toList isAsciiChar (by decide) s hs)
  · exact rpHadith_none_on_ascii s hs

theorem cpTatweel_none_on_ascii (s : List Char)
    (hs : ∀ c ∈ s, isAsciiChar c = true) : cpTatweel s = none := by
  unfold cpTatweel
  apply mconst_none
  unfold mplus
  have htw : s.takeWhile (fun c => c == tatweel) = [] := by
    cases s with
    | nil => rfl
    | cons c rest =>
      rw [List.takeWhile_cons, if_neg (by
        intro hb
        have hc := eq_of_beq hb
        subst hc
        exact absurd (hs tatweel (List.mem_cons_self _ _)) (by decide))]
  rw [htw]

theorem cpJoin_none_on_ascii (cls : List Char)
    (hcls : ∀ x ∈ cls, isAsciiChar x = false)
    (s : List Char) (hs : ∀ c ∈ s, isAsciiChar c = true) :
    cpJoin cls s = none := by
  unfold cpJoin
  cases s with
  | nil => rfl
  | cons c1 rest =>
    have hnot : ¬ c1 ∈ cls := by
      intro hmem
      have h1 := hcls c1 hmem
      rw [hs c1 (List.mem_cons_self _ _)] at h1
      simp at h1
    simp [hnot]

theorem lookup_char_none (c : Char) (hc : isAsciiChar c = true) :
    ∀ (table : List (Char × Char)), (∀ p ∈ table, isAsciiChar p.1 = false) →
      List.lookup c table = none := by
  intro table
  induction table with
  | nil => intro _; rfl
  | cons p tbl ih =>
    intro htable
    obtain ⟨k, v⟩ := p
    rw [List.lookup]
    have hne : (c == k) = false := by
      cases hb : c == k
      · rfl
      · have := eq_of_beq hb
        subst this
        have := htable (c, v) (List.mem_cons_self _ _)
        rw [hc] at this
        simp at this
    rw [hne]
    exact ih (fun q hq => htable q (List.mem_cons_of_mem _ hq))

theorem map_id_of_forall (f : Char → Char) :
    ∀ t : List Char, (∀ c ∈ t, f c = c) → t.map f = t := by
  intro t
  induction t with
  | nil => intro _; rfl
  | cons c rest ih =>
    intro h
    rw [List.map_cons, h c (List.mem_cons_self c rest),
      ih (fun x hx => h x (List.mem_cons_of_mem c hx))]

theorem applyNumbers_id_on_ascii (t : List Char)
    (ht : ∀ c ∈ t, isAsciiChar c = true) : applyNumbers t = t := by
  unfold applyNumbers
  refine map_id_of_forall _ t (fun c hc => ?_)
  rw [lookup_char_none c (ht c hc) arabic_numbers (by decide)]
  rfl

theorem fix_connected_letters_id_on_ascii (t : List Char)
    (ht : ∀ c ∈ t, isAsciiChar c = true) : fix_connected_letters t = t := by
  unfold fix_connected_letters
  rw [regexSub_id cpTatweel isAsciiChar cpTatweel_none_on_ascii t ht,
    regexSub_id (cpJoin alefCls) isAsciiChar
      (cpJoin_none_on_ascii alefCls (by decide)) t ht,
    regexSub_id (cpJoin letterCls) isAsciiChar
      (cpJoin_none_on_ascii letterCls (by decide)) t ht]

/-- On plain-ASCII text every rule category of the corrector is inert, so
`fix_arabic_ocr_errors` is the identity. -/
theorem fix_arabic_ocr_errors_id_on_ascii (t : List Char)
    (ht : ∀ c ∈ t, isAsciiChar c = true) : fix_arabic_ocr_errors t = t := by
  show fix_connected_letters (applyReplaceTable diacritics (applyNumbers
    (applyQuranic (religious_subs.foldl (fun acc m => regexSub m acc)
      (applyReplaceTable letter_fixes (word_pattern_subs.foldl
        (fun acc m => regexSub m acc)
        (applyReplaceTable arabic_ligatures t))))))) = t
  rw [applyReplaceTable_id arabic_ligatures isAsciiChar (by decide) t ht,
    foldl_regexSub_id word_pattern_subs isAsciiChar wp_subs_none_on_ascii t ht,
    applyReplaceTable_id letter_fixes isAsciiChar (by decide) t ht,
    foldl_regexSub_id religious_subs isAsciiChar religious_subs_none_on_ascii t ht]
  rw [show applyQuranic t = t from
    foldl_replace_id quranic_symbols (fun p => ' ' :: (p.2.toList ++ [' ']))
      isAsciiChar (by decide) t ht]
  rw [applyNumbers_id_on_ascii t ht,
    applyReplaceTable_id diacritics isAsciiChar (by decide) t ht,
    fix_connected_letters_id_on_ascii t ht]

/-- Claim C1, counterexample: `chunk_text` does not equal the reference
algorithm as literally stated (sealing trims trailing whitespace only):
on `"\n\na"` the code yields `["a"]` (leading whitespace stripped) while
the trailing-trim reference yields `["\n\na"]`. -/
theorem C1_counterexample :
    chunk_text "\n\na".toList 4000 ≠
      chunk_text_reference rstrip "\n\na".toList 4000 := by decide

/-- Claim C1 (amended): `chunk_text` equals the reference algorithm —
split on double newlines, greedily accumulate paragraphs in order,
sealing the current chunk and starting a new one when it is non-empty
and the paragraph would push its length over the maximum, appending the
final non-empty chunk — with sealing trimming leading AND trailing
whitespace (Python `str.strip`), not trailing only. -/
theorem C1_chunk_text_matches_reference (text : List Char) (max_chunk_size : Int) :
    chunk_text text max_chunk_size =
      chunk_text_reference pyStrip text max_chunk_size := by
  unfold chunk_text_reference chunk_text
  rw [foldl_refStep_eq_chunkLoop max_chunk_size (splitOnNN text) [] [],
    List.nil_append]

/-- Claim C1 witness: the amended equality at a concrete input. -/
theorem C1_witness :
    chunk_text "ab\n\ncd".toList 3 =
      chunk_text_reference pyStrip "ab\n\ncd".toList 3 :=
  C1_chunk_text_matches_reference "ab\n\ncd".toList 3

/-- Claim C2: a paragraph longer than the maximum is never split: its
whitespace-stripped form appears as a chunk of its own; and a single
5000-character paragraph with maximum 4000 yields exactly one chunk
holding the whole paragraph (no 4000/1000 split). -/
theorem C2_oversized_paragraph_alone :
    (∀ (text : List Char) (max_chunk_size : Int) (p : List Char),
      p ∈ splitOnNN text → max_chunk_size < (p.length : Int) →
      pyStrip p ∈ chunk_text text max_chunk_size) ∧
    chunk_text (List.replicate 5000 'a') 4000 = [List.replicate 5000 'a'] := by
  constructor
  · intro text m p hp hlen
    obtain ⟨gs, h1, h2, h3, h4⟩ :=
      chunkLoop_partition m (splitOnNN text) [] (by simp)
    rw [joinPars_nil] at h1
    rw [List.nil_append] at h2
    unfold chunk_text
    rw [h1]
    have hpj : p ∈ gs.flatten := by rw [h2]; exact hp
    obtain ⟨g, hg, hpg⟩ := List.mem_flatten.mp hpj
    have hsingle : g = [p] := by
      rcases Nat.lt_or_ge g.length 2 with hl | hl
      · cases g with
        | nil => cases hpg
        | cons q rest =>
          cases rest with
          | nil =>
            have hq : p = q := List.mem_singleton.mp hpg
            subst hq
            rfl
          | cons q2 rest2 =>
            simp [List.length_cons] at hl
            omega
      · exact absurd (h4 g hg hl p hpg) (by omega)
    refine List.mem_map.mpr ⟨g, hg, ?_⟩
    rw [hsingle, joinPars_single, pyStrip_append_sep]
  · have hsplit : splitOnNN (List.replicate 5000 'a') = [List.replicate 5000 'a'] :=
      splitOnNN_no_newline _ (fun c hc => by
        rw [List.eq_of_mem_replicate hc]
        decide)
    rw [chunk_text_single _ _ hsplit, pyStrip_of_no_ws _ (fun c hc => by
      rw [List.eq_of_mem_replicate hc]
      decide)]

/-- Claim C2 witness: an oversized paragraph at a concrete input. -/
theorem C2_witness :
    pyStrip (List.replicate 5 'a') ∈ chunk_text (List.replicate 5 'a') 3 :=
  C2_oversized_paragraph_alone.1 (List.replicate 5 'a') 3 (List.replicate 5 'a')
    (by decide) (by decide)

/-- Claim C3: the chunks are exactly the original paragraphs, in original
order, grouped into consecutive non-empty runs, each run joined with the
paragraph separator and trimmed of boundary whitespace — so concatenating
the chunks (reinserting separators, modulo the boundary whitespace the
trim removes) reproduces the original paragraph sequence, and no
paragraph is split across two chunks. -/
theorem C3_order_and_integrity (text : List Char) (max_chunk_size : Int) :
    ∃ gs : List (List (List Char)),
      chunk_text text max_chunk_size =
        gs.map (fun g => pyStrip (joinPars g)) ∧
      gs.flatten = splitOnNN text ∧
      (∀ g ∈ gs, g ≠ []) := by
  obtain ⟨gs, h1, h2, h3, _⟩ :=
    chunkLoop_partition max_chunk_size (splitOnNN text) [] (by simp)
  rw [joinPars_nil] at h1
  rw [List.nil_append] at h2
  exact ⟨gs, h1, h2, h3⟩

/-- Claim C3 witness: the partition at a concrete input. -/
theorem C3_witness :
    ∃ gs : List (List (List Char)),
      chunk_text "ab\n\ncd\n\nef".toList 7 =
        gs.map (fun g => pyStrip (joinPars g)) ∧
      gs.flatten = splitOnNN "ab\n\ncd\n\nef".toList ∧
      (∀ g ∈ gs, g ≠ []) :=
  C3_order_and_integrity "ab\n\ncd\n\nef".toList 7

/-- Claim C4, counterexample: when every corrected candidate has zero
special characters the selection returns the first candidate RAW, not
corrected: on the single candidate `"ـ"` (one tatweel) the corrected text
is empty, yet the function returns the raw `"ـ"`. -/
theorem C4_counterexample :
    select_final_text ["ـ".toList] = "ـ".toList ∧
    fix_arabic_ocr_errors "ـ".toList = [] := by
  exact ⟨by decide, by decide⟩

/-- Claim C4 (amended): the selection applies the Corrector to each
candidate and returns the corrected candidate whose corrected text first
attains the strictly greatest special-character count — ties keep the
first — EXCEPT that when all corrected counts are zero the first
candidate is returned in raw, uncorrected form. -/
theorem C4_first_candidate_selection (c0 : List Char) (tl : List (List Char)) :
    (maxCount (c0 :: tl) = 0 → select_final_text (c0 :: tl) = c0) ∧
    (0 < maxCount (c0 :: tl) →
      ∃ c, (c0 :: tl).find?
          (fun x => correctedCount x == maxCount (c0 :: tl)) = some c ∧
        select_final_text (c0 :: tl) = fix_arabic_ocr_errors c) := by
  constructor
  · intro h0
    have hsel := (selectLoop_characterization (c0 :: tl) []).1 (by
      rw [h0]
      exact Nat.zero_le _)
    show (if selectLoop [] (c0 :: tl) ≠ [] then selectLoop [] (c0 :: tl)
      else c0) = c0
    rw [if_neg (by simp [hsel])]
  · intro hpos
    obtain ⟨c, hc1, hc2⟩ := (selectLoop_characterization (c0 :: tl) []).2 (by
      show countSpecial [] < maxCount (c0 :: tl)
      simpa using hpos)
    have hcc : correctedCount c = maxCount (c0 :: tl) := by
      have := List.find?_some hc1
      simpa using this
    have hne : selectLoop [] (c0 :: tl) ≠ [] := by
      rw [hc2]
      apply countSpecial_pos_ne_nil
      show 0 < correctedCount c
      omega
    refine ⟨c, hc1, ?_⟩
    show (if selectLoop [] (c0 :: tl) ≠ [] then selectLoop [] (c0 :: tl)
      else c0) = fix_arabic_ocr_errors c
    rw [if_pos hne]
    exact hc2

/-- Claim C4 witness: a candidate with a positive corrected count is
returned corrected. -/
theorem C4_witness :
    ∃ c, (["ا".toList] : List (List Char)).find?
        (fun x => correctedCount x == maxCount ["ا".toList]) = some c ∧
      select_final_text ["ا".toList] = fix_arabic_ocr_errors c :=
  (C4_first_candidate_selection "ا".toList []).2 (by decide)

/-- Claim C5: the classifier is total — `some` on the empty string and on
every one-character string — and on a single code point it returns true
exactly when the point lies in one of the inclusive ranges the source
lists (standard Arabic, Arabic Supplement, the source's Extended-A/B/C
ranges, Presentation Forms A/B, Arabic ligatures, Rumi numerals, Arabic
mathematical alphabetic symbols); false on empty input. -/
theorem C5_classifier_total_and_correct :
    (∀ n : Nat, is_special_arabic_char [n] = some (isSpecialCode n)) ∧
    (∀ n : Nat, isSpecialCode n = true ↔ inListedBlocks n) ∧
    is_special_arabic_char [] = some false := by
  refine ⟨fun n => rfl, fun n => ?_, rfl⟩
  unfold isSpecialCode special_ranges inListedBlocks
  simp only [List.any_cons, List.any_nil, Bool.or_eq_true, Bool.and_eq_true,
    decide_eq_true_eq, Bool.false_eq_true, or_false]
  omega

/-- Claim C6, counterexample: the end-to-end example does not produce the
claimed `"ال world\n\nالله is great"`: category 1 rewrites the
presentation-form lam before the `اﻟ+` regex of category 2 runs, so that
regex (which requires the presentation form) never fires and the lam pair
stays `الل`. -/
theorem C6_counterexample :
    chunk_text (fix_arabic_ocr_errors "اﻟﻟ world\n\nﷲ is great".toList) 4000 ≠
      ["ال world\n\nالله is great".toList] := by decide

/-- Claim C6 (amended): on input `"اﻟﻟ world\n\nﷲ is great"` the Corrector
maps `"اﻟﻟ"` to `"الل"` (ligature expansion only — the `"ال"` contraction
regex cannot fire after category 1 has replaced the presentation-form lam
it requires) and `"ﷲ"` to `"الله"`, and chunking the corrected text at
maximum 4000 yields the single chunk `"الل world\n\nالله is great"`. -/
theorem C6_end_to_end :
    fix_arabic_ocr_errors "اﻟﻟ world\n\nﷲ is great".toList =
      "الل world\n\nالله is great".toList ∧
    chunk_text (fix_arabic_ocr_errors "اﻟﻟ world\n\nﷲ is great".toList) 4000 =
      ["الل world\n\nالله is great".toList] := by
  exact ⟨by decide, by decide⟩

/-- Claim C7, counterexample: the Corrector is not idempotent: the
liturgical-symbol pass pads `۞` with one more space on each side at every
application, so the second application changes the output again. -/
theorem C7_counterexample :
    fix_arabic_ocr_errors (fix_arabic_ocr_errors "۞".toList) ≠
      fix_arabic_ocr_errors "۞".toList := by decide

/-- Claim C7 (amended): the Corrector is idempotent on text containing
none of the rule characters — in particular on any 7-bit ASCII text,
where every category is inert and the Corrector is the identity. -/
theorem C7_idempotent_on_rule_free_text (t : List Char)
    (ht : ∀ c ∈ t, isAsciiChar c = true) :
    fix_arabic_ocr_errors (fix_arabic_ocr_errors t) = fix_arabic_ocr_errors t := by
  rw [fix_arabic_ocr_errors_id_on_ascii t ht,
    fix_arabic_ocr_errors_id_on_ascii t ht]

/-- Claim C7 witness: idempotence on a concrete ASCII text. -/
theorem C7_witness :
    fix_arabic_ocr_errors (fix_arabic_ocr_errors "hello world".toList) =
      fix_arabic_ocr_errors "hello world".toList :=
  C7_idempotent_on_rule_free_text "hello world".toList (by decide)

/-- Claim C8, counterexample: `chunk_text` on the empty string does not
return an empty chunk list. -/
theorem C8_counterexample : chunk_text [] 4000 ≠ [] := by decide

/-- Claim C8 (amended): `chunk_text` on the empty string returns the
one-element list holding the empty chunk, for every maximum size:
`"".split("\n\n")` is `[""]`, the lone empty paragraph is accumulated as
`"\n\n"`, and the final non-empty current chunk strips to `""`. -/
theorem C8_empty_text (max_chunk_size : Int) :
    chunk_text [] max_chunk_size = [[]] := by
  unfold chunk_text
  rw [show splitOnNN [] = [[]] from rfl]
  rw [chunkLoop, if_neg (by simp)]
  rw [chunkLoop, if_pos (by simp [parSep])]
  decide

/-- Claim C9, counterexample: `chunk_text` does not raise on a
non-positive maximum size: at maximum 0 it returns normally, each
paragraph sealed as its own chunk. -/
theorem C9_counterexample :
    chunk_text "a\n\nb".toList 0 = ["a".toList, "b".toList] := by decide

/-- Claim C9 (amended): `chunk_text` never raises: it is total for every
maximum size; for a non-positive maximum it still returns normally, every
paragraph becoming its own whitespace-stripped chunk. -/
theorem C9_total_nonpositive (text : List Char) (max_chunk_size : Int)
    (hm : max_chunk_size ≤ 0) :
    chunk_text text max_chunk_size = (splitOnNN text).map pyStrip := by
  unfold chunk_text
  cases h : splitOnNN text with
  | nil => exact absurd h (splitOnNN_ne_nil text)
  | cons p ps =>
    rw [chunkLoop, if_neg (by simp), List.nil_append,
      chunkLoop_nonpos max_chunk_size hm ps p, List.map_cons]

/-- Claim C9 witness: normal return at a negative maximum size. -/
theorem C9_witness :
    chunk_text "x\n\ny".toList (-1) = (splitOnNN "x\n\ny".toList).map pyStrip :=
  C9_total_nonpositive "x\n\ny".toList (-1) (by decide)

/-- Claim C10: every chunk `chunk_text` returns equals its own
whitespace-strip — no leading and no trailing whitespace — because the
code seals every chunk, the final one included, with `str.strip`, which
trims both sides. -/
theorem C10_chunks_fully_stripped (text : List Char) (max_chunk_size : Int)
    (c : List Char) (hc : c ∈ chunk_text text max_chunk_size) :
    pyStrip c = c := by
  obtain ⟨x, hx⟩ := chunkLoop_mem_strip max_chunk_size (splitOnNN text) [] c hc
  rw [hx, pyStrip_idem]

/-- Claim C10 witness: the chunk produced from `" a "` is stripped. -/
theorem C10_witness : pyStrip "a".toList = "a".toList :=
  C10_chunks_fully_stripped " a ".toList 4000 "a".toList (by decide)
